import Mathlib

/-!
Verification of the text-rendering pipeline and view-state machine of the
wiki-search terminal application (Go sources `pkg/utils/utils.go` and
`pkg/model/model.go`).

Strings are shallowly embedded as `List Char`; Go's byte offsets are modelled
as character offsets (the two coincide on ASCII text).  Each definition below
is a direct transcription of the corresponding Go function.
-/

namespace WikiSearch

/-- Strings are modelled as lists of characters. -/
abbrev Str := List Char

/-- Coerce a Lean string literal into the model's string type. -/
def str (s : String) : Str := s.data

/-- Models Go `unicode.IsSpace` (the whitespace classifier used by
`strings.Fields`): ASCII whitespace plus the Unicode space characters. -/
def isSpace (c : Char) : Bool :=
  c = ' ' ∨ c = '\t' ∨ c = '\n' ∨ c = '\x0b' ∨ c = '\x0c' ∨ c = '\r' ∨
  c = '\x85' ∨ c = '\xa0' ∨ c = ' ' ∨
  (' ' ≤ c ∧ c ≤ ' ') ∨ c = ' ' ∨ c = ' ' ∨
  c = ' ' ∨ c = ' ' ∨ c = '　'

/-- Models Go `strings.Split(s, sep)` for a single-character separator:
the (always non-empty) list of chunks of `s` between occurrences of `c`. -/
def splitChar (c : Char) : Str → List Str
  | [] => [[]]
  | x :: xs =>
    if x = c then [] :: splitChar c xs
    else
      match splitChar c xs with
      | [] => [[x]]
      | h :: t => (x :: h) :: t

/-- Join chunks back together with a single separator character between
consecutive chunks (the inverse of `splitChar`). -/
def joinWith (c : Char) : List Str → Str
  | [] => []
  | p :: ps => p ++ ps.flatMap (fun q => c :: q)

/-- Accumulator-passing worker for `fields`: `acc` holds the reversed
characters of the word currently being scanned. -/
def fieldsAux (acc : Str) : Str → List Str
  | [] => if acc = [] then [] else [acc.reverse]
  | c :: cs =>
    if isSpace c then
      if acc = [] then fieldsAux [] cs else acc.reverse :: fieldsAux [] cs
    else fieldsAux (c :: acc) cs

/-- Models Go `strings.Fields`: the maximal runs of non-whitespace
characters of `s`, in order. -/
def fields (s : Str) : List Str := fieldsAux [] s

/-- Models Go `strings.ToLower`, character by character (faithful on ASCII;
Go additionally lowers non-ASCII letters via the Unicode tables). -/
def toLower (s : Str) : Str := s.map Char.toLower

/-- Models Go `strings.Index(s, sub)`: the first offset at which `sub`
occurs in `s`, or `none` (Go returns `-1`). -/
def strIndex (s sub : Str) : Option Nat :=
  if sub.isPrefixOf s then some 0
  else
    match s with
    | [] => none
    | _ :: t => (strIndex t sub).map (· + 1)

theorem strIndex_some_isPrefixOf {s sub : Str} {k : Nat}
    (h : strIndex s sub = some k) : sub.isPrefixOf (s.drop k) = true := by
  induction s generalizing k with
  | nil =>
    rw [strIndex] at h
    split at h
    next hp =>
      simp only [Option.some.injEq] at h
      subst h
      simpa using hp
    next => simp at h
  | cons x t ih =>
    rw [strIndex] at h
    split at h
    next hp =>
      simp only [Option.some.injEq] at h
      subst h
      simpa using hp
    next =>
      simp only [Option.map_eq_some'] at h
      obtain ⟨k', hk', rfl⟩ := h
      simpa using ih hk'

theorem strIndex_some_min {s sub : Str} {k : Nat}
    (h : strIndex s sub = some k) :
    ∀ j < k, sub.isPrefixOf (s.drop j) = false := by
  induction s generalizing k with
  | nil =>
    rw [strIndex] at h
    split at h
    next =>
      simp only [Option.some.injEq] at h
      subst h
      exact fun j hj => absurd hj (Nat.not_lt_zero j)
    next => simp at h
  | cons x t ih =>
    rw [strIndex] at h
    split at h
    next =>
      simp only [Option.some.injEq] at h
      subst h
      exact fun j hj => absurd hj (Nat.not_lt_zero j)
    next hp =>
      simp only [Option.map_eq_some'] at h
      obtain ⟨k', hk', rfl⟩ := h
      intro j hj
      cases j with
      | zero => simpa using Bool.eq_false_iff.mpr hp
      | succ j' => simpa using ih hk' j' (by omega)

theorem strIndex_none {s sub : Str} (h : strIndex s sub = none) :
    ∀ j, sub.isPrefixOf (s.drop j) = false := by
  induction s with
  | nil =>
    intro j
    rw [strIndex] at h
    split at h
    · simp at h
    · cases j <;> simpa using Bool.eq_false_iff.mpr (by assumption)
  | cons x t ih =>
    intro j
    rw [strIndex] at h
    split at h
    next => simp at h
    next hp =>
      simp only [Option.map_eq_none'] at h
      cases j with
      | zero => simpa using Bool.eq_false_iff.mpr hp
      | succ j' => simpa using ih h j'

theorem isPrefixOf_length_le {l s : Str} (h : l.isPrefixOf s = true) :
    l.length ≤ s.length :=
  List.IsPrefix.length_le (List.isPrefixOf_iff_prefix.mp h)

theorem strIndex_some_le {s sub : Str} {k : Nat} (hsub : sub ≠ [])
    (h : strIndex s sub = some k) : k + 1 ≤ s.length := by
  have hp := strIndex_some_isPrefixOf h
  have hl := isPrefixOf_length_le hp
  have : 1 ≤ sub.length := by
    cases sub with
    | nil => simp at hsub
    | cons a b => simp
  have := s.length_drop k
  omega

/-- The scanning loop of Go `FindMatches` (`pkg/utils/utils.go`): repeatedly
look for the query in the suffix beginning at `start`; on a hit at relative
offset `i`, record `start + i` and restart the scan at `start + i + 1`
(one character past the match's start). -/
def findLoop (lc lq : Str) (hq : lq ≠ []) (start : Nat) : List Nat :=
  match h : strIndex (lc.drop start) lq with
  | none => []
  | some i => (start + i) :: findLoop lc lq hq (start + i + 1)
termination_by lc.length + 1 - start
decreasing_by
  have := strIndex_some_le hq h
  have := lc.length_drop start
  omega

/-- Models Go `FindMatches` (`pkg/utils/utils.go`): start offsets of all
case-insensitive occurrences of `query` in `content`; an empty query yields
no matches. -/
def findMatches (content query : Str) : List Nat :=
  if h : query = [] then []
  else
    findLoop (toLower content) (toLower query)
      (fun he => h (by simpa [toLower] using he)) 0

theorem isPrefixOf_nil_iff {l : Str} : l.isPrefixOf ([] : Str) = true ↔ l = [] := by
  cases l <;> simp [List.isPrefixOf]

theorem findLoop_mem {lc lq : Str} (hq : lq ≠ []) :
    ∀ start i, i ∈ findLoop lc lq hq start ↔
      start ≤ i ∧ lq.isPrefixOf (lc.drop i) = true := by
  intro start
  induction start using findLoop.induct lc lq hq with
  | case1 s hnone =>
    intro i
    rw [findLoop]
    split
    next =>
      simp only [List.not_mem_nil, false_iff]
      rintro ⟨hsi, hpre⟩
      have hn := strIndex_none hnone (i - s)
      rw [List.drop_drop, Nat.add_sub_cancel' hsi] at hn
      rw [hpre] at hn
      cases hn
    next h => rw [hnone] at h; cases h
  | case2 s k hsome ih =>
    intro i
    rw [findLoop]
    split
    next h => rw [hsome] at h; cases h
    next k' h =>
      rw [hsome] at h
      injection h with h
      subst h
      simp only [List.mem_cons, ih]
      constructor
      · rintro (rfl | ⟨h1, h2⟩)
        · refine ⟨by omega, ?_⟩
          have hp := strIndex_some_isPrefixOf hsome
          rwa [List.drop_drop] at hp
        · exact ⟨by omega, h2⟩
      · rintro ⟨hsi, hpre⟩
        rcases Nat.lt_trichotomy i (s + k) with hlt | heq | hgt
        · exfalso
          have hmin := strIndex_some_min hsome (i - s) (by omega)
          rw [List.drop_drop, Nat.add_sub_cancel' hsi] at hmin
          rw [hpre] at hmin
          cases hmin
        · exact Or.inl heq
        · exact Or.inr ⟨by omega, hpre⟩

theorem findLoop_sorted {lc lq : Str} (hq : lq ≠ []) :
    ∀ start, List.Sorted (· < ·) (findLoop lc lq hq start) := by
  intro start
  induction start using findLoop.induct lc lq hq with
  | case1 s hnone =>
    rw [findLoop]
    split
    next => exact List.sorted_nil
    next h => rw [hnone] at h; cases h
  | case2 s k hsome ih =>
    rw [findLoop]
    split
    next h => rw [hsome] at h; cases h
    next k' h =>
      rw [hsome] at h
      injection h with h
      subst h
      rw [List.sorted_cons]
      refine ⟨fun b hb => ?_, ih⟩
      have hm := (findLoop_mem hq _ b).mp hb
      omega

/-- C3: `FindMatches` reference characterisation.  An empty query yields no
matches; otherwise the result is exactly the ascending list of all offsets
at which the lowercased query occurs in the lowercased content (the scan
advances one character past each match's start, so overlapping occurrences
are all reported); in particular query "aa" in "aaaa" yields 0,1,2 and
`findMatches "Hello World" "world" = [6]` (case-insensitive). -/
theorem findMatches_reference :
    (∀ content query : Str,
      findMatches content query =
        if query = [] then []
        else (List.range (toLower content).length).filter
          (fun i => (toLower query).isPrefixOf ((toLower content).drop i)))
    ∧ findMatches (str "aaaa") (str "aa") = [0, 1, 2]
    ∧ findMatches (str "Hello World") (str "world") = [6] := by
  have main : ∀ content query : Str,
      findMatches content query =
        if query = [] then []
        else (List.range (toLower content).length).filter
          (fun i => (toLower query).isPrefixOf ((toLower content).drop i)) := by
    intro c q
    by_cases hq : q = []
    · simp [findMatches, hq]
    · rw [findMatches, dif_neg hq, if_neg hq]
      have hlq : toLower q ≠ [] := fun he => hq (by simpa [toLower] using he)
      haveI : IsAntisymm ℕ (· < ·) :=
        ⟨fun a b h1 h2 => absurd h2 (Nat.lt_asymm h1)⟩
      have nd1 : (findLoop (toLower c) (toLower q) hlq 0).Nodup :=
        (findLoop_sorted hlq 0).nodup
      apply List.eq_of_perm_of_sorted (r := (· < ·)) ?_ (findLoop_sorted hlq 0) ?_
      · refine (List.perm_ext_iff_of_nodup nd1 ((List.nodup_range _).filter _)).mpr ?_
        intro a
        rw [findLoop_mem hlq 0 a, List.mem_filter, List.mem_range]
        constructor
        · rintro ⟨-, hpre⟩
          refine ⟨?_, hpre⟩
          by_contra hlen
          push_neg at hlen
          rw [List.drop_eq_nil_of_le hlen] at hpre
          exact hlq (isPrefixOf_nil_iff.mp hpre)
        · rintro ⟨-, hpre⟩
          exact ⟨Nat.zero_le a, hpre⟩
      · exact (List.pairwise_lt_range _).sublist (List.filter_sublist _)
  refine ⟨main, ?_, ?_⟩ <;> rw [main] <;> decide

/-- Models Go `CalculateLineFromIndex` (`pkg/utils/utils.go`): the number of
newline characters strictly before `index`. -/
def calculateLineFromIndex (content : Str) (index : Nat) : Nat :=
  (content.take index).count '\n'

/-- The greedy accumulation loop of Go `WrapText`: `cur` is the line being
built; when appending the next word plus one separating space would exceed
`width`, `cur` is emitted and a new line starts with that word. -/
def greedy (width : Int) (cur : Str) : List Str → List Str
  | [] => [cur]
  | w :: ws =>
    if (cur.length : Int) + 1 + w.length > width then cur :: greedy width w ws
    else greedy width (cur ++ ' ' :: w) ws

/-- Per-input-line processing of Go `WrapText`: a line with no words becomes
a single blank output line; otherwise its words are reflowed greedily. -/
def wrapLine (width : Int) (line : Str) : List Str :=
  match fields line with
  | [] => [[]]
  | w :: ws => greedy width w ws

/-- Models Go `WrapText` (`pkg/utils/utils.go`): if `width ≤ 0` the text is
returned unchanged; otherwise every newline-separated input line is reflowed
and each emitted line is written followed by a newline. -/
def wrapText (text : Str) (width : Int) : Str :=
  if width ≤ 0 then text
  else ((splitChar '\n' text).flatMap (wrapLine width)).flatMap (fun l => l ++ ['\n'])

/-- A word produced by `fields`: non-empty and free of whitespace. -/
def goodWord (w : Str) : Prop := w ≠ [] ∧ ∀ c ∈ w, isSpace c = false

theorem fieldsAux_good :
    ∀ (s acc : Str), (∀ c ∈ acc, isSpace c = false) →
      ∀ w ∈ fieldsAux acc s, goodWord w := by
  intro s
  induction s with
  | nil =>
    intro acc hacc w hw
    rw [fieldsAux] at hw
    split at hw
    · simp at hw
    next hne =>
      simp only [List.mem_singleton] at hw
      subst hw
      exact ⟨by simpa using hne, by simpa using hacc⟩
  | cons c cs ih =>
    intro acc hacc w hw
    rw [fieldsAux] at hw
    split at hw
    next hsp =>
      split at hw
      · exact ih [] (by simp) w hw
      next hne =>
        rcases List.mem_cons.mp hw with rfl | hmem
        · exact ⟨by simpa using hne, by simpa using hacc⟩
        · exact ih [] (by simp) w hmem
    next hsp =>
      refine ih (c :: acc) ?_ w hw
      intro d hd
      rcases List.mem_cons.mp hd with rfl | hd
      · simpa using hsp
      · exact hacc d hd

theorem fields_good {s : Str} : ∀ w ∈ fields s, goodWord w :=
  fieldsAux_good s [] (by simp)

theorem fieldsAux_word {w : Str} (hw : ∀ c ∈ w, isSpace c = false) :
    ∀ (acc rest : Str), fieldsAux acc (w ++ rest) = fieldsAux (w.reverse ++ acc) rest := by
  induction w with
  | nil => intro acc rest; simp
  | cons c w' ih =>
    intro acc rest
    have hc : isSpace c = false := hw c (by simp)
    rw [List.cons_append, fieldsAux, hc]
    simp only [Bool.false_eq_true, if_false]
    rw [ih (fun d hd => hw d (by simp [hd])) (c :: acc) rest]
    simp

theorem fieldsAux_space_append {sc : Char} (hs : isSpace sc = true) :
    ∀ (a acc b : Str),
      fieldsAux acc (a ++ sc :: b) = fieldsAux acc a ++ fieldsAux [] b := by
  intro a
  induction a with
  | nil =>
    intro acc b
    simp only [List.nil_append, fieldsAux, hs, if_true]
    split <;> simp
  | cons c a' ih =>
    intro acc b
    simp only [List.cons_append, fieldsAux]
    by_cases hc : isSpace c = true
    · simp only [hc, if_true]
      split
      · exact ih [] b
      · rw [List.append_eq, ih [] b]
        simp
    · simp only [Bool.eq_false_iff.mpr hc, Bool.false_eq_true, if_false]
      exact ih (c :: acc) b

theorem fields_space_append {sc : Char} (hs : isSpace sc = true) (a b : Str) :
    fields (a ++ sc :: b) = fields a ++ fields b :=
  fieldsAux_space_append hs a [] b

theorem joinWith_cons_cons (c : Char) (p q : Str) (ps : List Str) :
    joinWith c (p :: q :: ps) = p ++ c :: joinWith c (q :: ps) := by
  simp [joinWith]

theorem joinWith_cons_head (c x : Char) (h : Str) (t : List Str) :
    joinWith c ((x :: h) :: t) = x :: joinWith c (h :: t) := by
  cases t <;> simp [joinWith]

theorem splitChar_ne_nil (c : Char) (s : Str) : splitChar c s ≠ [] := by
  induction s with
  | nil => simp [splitChar]
  | cons x xs ih =>
    rw [splitChar]
    split
    · simp
    · split <;> simp

theorem splitChar_joinWith (c : Char) (s : Str) :
    joinWith c (splitChar c s) = s := by
  induction s with
  | nil => rfl
  | cons x xs ih =>
    rw [splitChar]
    by_cases hx : x = c
    · subst hx
      rw [if_pos rfl]
      obtain ⟨h, t, hr⟩ := List.exists_cons_of_ne_nil (splitChar_ne_nil x xs)
      rw [hr, joinWith_cons_cons, List.nil_append, ← hr, ih]
    · rw [if_neg hx]
      obtain ⟨h, t, hr⟩ := List.exists_cons_of_ne_nil (splitChar_ne_nil c xs)
      rw [hr]
      show joinWith c ((x :: h) :: t) = x :: xs
      rw [joinWith_cons_head, ← hr, ih]

theorem fields_single {d : Str} (hd : goodWord d) : fields d = [d] := by
  obtain ⟨hne, hch⟩ := hd
  rw [fields]
  have := fieldsAux_word hch [] d.reverse.reverse
  simp only [List.append_nil] at this
  rw [show d = d ++ [] from (List.append_nil d).symm, fieldsAux_word hch [] []]
  rw [fieldsAux]
  simp [hne]

theorem fields_joinWith {c : Char} (hc : isSpace c = true) :
    ∀ parts : List Str, fields (joinWith c parts) = parts.flatMap fields := by
  intro parts
  induction parts with
  | nil => rfl
  | cons p ps ih =>
    cases ps with
    | nil => simp [joinWith]
    | cons q qs =>
      rw [joinWith_cons_cons, fields_space_append hc, ih]
      simp

theorem fields_joinWith_words {ds : List Str} (hds : ∀ d ∈ ds, goodWord d) :
    fields (joinWith ' ' ds) = ds := by
  rw [fields_joinWith (by decide) ds]
  induction ds with
  | nil => rfl
  | cons d ds ih =>
    rw [List.flatMap_cons, fields_single (hds d (by simp)),
      ih (fun d hd => hds d (by simp [hd]))]
    rfl

theorem fields_eq_flatMap_lines (t : Str) :
    fields t = (splitChar '\n' t).flatMap fields := by
  conv_lhs => rw [← splitChar_joinWith '\n' t]
  exact fields_joinWith (by decide) _

theorem joinWith_append_single (c : Char) (w : Str) :
    ∀ cs : List Str, cs ≠ [] →
      joinWith c (cs ++ [w]) = joinWith c cs ++ c :: w := by
  intro cs hcs
  cases cs with
  | nil => simp at hcs
  | cons d ds => simp [joinWith, List.flatMap_append, List.append_assoc]

theorem joinWith_length (c : Char) (d : Str) :
    ∀ ds : List Str,
      (joinWith c (d :: ds)).length =
        d.length + ((ds.map (fun w => w.length + 1)).sum) := by
  intro ds
  induction ds generalizing d with
  | nil => simp [joinWith]
  | cons e es ih =>
    rw [joinWith_cons_cons, List.length_append]
    have := ih e
    simp only [List.map_cons, List.sum_cons, List.length_cons]
    omega

theorem mem_joinWith {c : Char} {x : Char} :
    ∀ {ds : List Str}, x ∈ joinWith c ds → x = c ∨ ∃ d ∈ ds, x ∈ d := by
  intro ds
  induction ds with
  | nil => simp [joinWith]
  | cons d es ih =>
    intro hx
    cases es with
    | nil =>
      simp only [joinWith, List.flatMap_nil, List.append_nil] at hx
      exact Or.inr ⟨d, by simp, hx⟩
    | cons e es' =>
      rw [joinWith_cons_cons] at hx
      rcases List.mem_append.mp hx with hd | htail
      · exact Or.inr ⟨d, by simp, hd⟩
      · rcases List.mem_cons.mp htail with rfl | hrest
        · exact Or.inl rfl
        · rcases ih hrest with h | ⟨d', hd', hx'⟩
          · exact Or.inl h
          · exact Or.inr ⟨d', by simp [hd'], hx'⟩

theorem newline_not_mem_joinWith {ds : List Str}
    (hds : ∀ d ∈ ds, goodWord d) : '\n' ∉ joinWith ' ' ds := by
  intro hmem
  rcases mem_joinWith hmem with h | ⟨d, hd, hx⟩
  · cases h
  · have := (hds d hd).2 '\n' hx
    simp [isSpace] at this

theorem splitChar_append_cons (c : Char) :
    ∀ {l : Str}, c ∉ l → ∀ rest : Str,
      splitChar c (l ++ c :: rest) = l :: splitChar c rest := by
  intro l
  induction l with
  | nil =>
    intro _ rest
    simp [splitChar]
  | cons x l' ih =>
    intro hc rest
    have hx : ¬x = c := fun h => hc (by simp [h])
    rw [List.cons_append, splitChar, if_neg hx,
      ih (fun h => hc (by simp [h])) rest]

theorem splitChar_render (c : Char) :
    ∀ ls : List Str, (∀ l ∈ ls, c ∉ l) →
      splitChar c (ls.flatMap (fun l => l ++ [c])) = ls ++ [[]] := by
  intro ls
  induction ls with
  | nil => simp [splitChar]
  | cons l ls' ih =>
    intro hls
    rw [List.flatMap_cons, List.append_assoc, List.singleton_append,
      splitChar_append_cons c (hls l (by simp)),
      ih (fun l' hl' => hls l' (by simp [hl']))]
    rfl

theorem greedy_fits (width : Int) :
    ∀ (ws : List Str) (cur : Str),
      (cur.length : Int) + ((ws.map (fun w => w.length + 1)).sum : Nat) ≤ width →
      greedy width cur ws = [cur ++ ws.flatMap (fun w => ' ' :: w)] := by
  intro ws
  induction ws with
  | nil => intro cur _; simp [greedy]
  | cons w ws' ih =>
    intro cur hfit
    simp only [List.map_cons, List.sum_cons] at hfit
    rw [greedy]
    have hcond : ¬((cur.length : Int) + 1 + w.length > width) := by omega
    rw [if_neg hcond, ih (cur ++ ' ' :: w) ?_]
    · simp
    · simp only [List.length_append, List.length_cons]
      omega

theorem joinWith_single (c : Char) (w : Str) : joinWith c [w] = w := by
  simp [joinWith]

theorem greedy_emits (width : Int) :
    ∀ (ws cs : List Str),
      (∀ d ∈ cs, goodWord d) → (∀ w ∈ ws, goodWord w) → cs ≠ [] →
      (cs.length = 1 ∨ ((joinWith ' ' cs).length : Int) ≤ width) →
      ∀ l ∈ greedy width (joinWith ' ' cs) ws,
        ∃ ds, l = joinWith ' ' ds ∧ (∀ d ∈ ds, goodWord d) ∧ ds ≠ [] ∧
          (ds.length = 1 ∨ (l.length : Int) ≤ width) ∧ ∀ d ∈ ds, d ∈ cs ++ ws := by
  intro ws
  induction ws with
  | nil =>
    intro cs hcs _ hne hfit l hl
    rw [greedy] at hl
    simp only [List.mem_singleton] at hl
    subst hl
    exact ⟨cs, rfl, hcs, hne, hfit, fun d hd => by simp [hd]⟩
  | cons w ws' ih =>
    intro cs hcs hws hne hfit l hl
    rw [greedy] at hl
    split at hl
    next =>
      rcases List.mem_cons.mp hl with rfl | hl'
      · exact ⟨cs, rfl, hcs, hne, hfit, fun d hd => by simp [hd]⟩
      · have hw : goodWord w := hws w (by simp)
        rw [← joinWith_single ' ' w] at hl'
        obtain ⟨ds, h1, h2, h3, h4, h5⟩ :=
          ih [w] (by simpa using hw) (fun v hv => hws v (by simp [hv]))
            (by simp) (Or.inl rfl) l hl'
        refine ⟨ds, h1, h2, h3, h4, fun d hd => ?_⟩
        have hmem : d ∈ w :: ws' := by simpa using h5 d hd
        exact List.mem_append.mpr (Or.inr hmem)
    next hcond =>
      have hw : goodWord w := hws w (by simp)
      rw [← joinWith_append_single ' ' w cs hne] at hl
      have hfit' : ((joinWith ' ' (cs ++ [w])).length : Int) ≤ width := by
        rw [joinWith_append_single ' ' w cs hne]
        simp only [List.length_append, List.length_cons]
        push_neg at hcond
        omega
      obtain ⟨ds, h1, h2, h3, h4, h5⟩ :=
        ih (cs ++ [w])
          (fun d hd => by
            rcases List.mem_append.mp hd with hd' | hd'
            · exact hcs d hd'
            · simp only [List.mem_singleton] at hd'
              subst hd'
              exact hw)
          (fun v hv => hws v (by simp [hv])) (by simp) (Or.inr hfit') l hl
      refine ⟨ds, h1, h2, h3, h4, fun d hd => ?_⟩
      have := h5 d hd
      simp only [List.append_assoc, List.singleton_append] at this
      exact this

theorem greedy_words (width : Int) :
    ∀ (ws cs : List Str),
      (∀ d ∈ cs, goodWord d) → (∀ w ∈ ws, goodWord w) → cs ≠ [] →
      (greedy width (joinWith ' ' cs) ws).flatMap fields = cs ++ ws := by
  intro ws
  induction ws with
  | nil =>
    intro cs hcs _ hne
    rw [greedy]
    simp [fields_joinWith_words hcs]
  | cons w ws' ih =>
    intro cs hcs hws hne
    rw [greedy]
    split
    next =>
      have hw : goodWord w := hws w (by simp)
      rw [List.flatMap_cons, fields_joinWith_words hcs]
      have hrec := ih [w] (by simpa using hw)
        (fun v hv => hws v (by simp [hv])) (by simp)
      rw [joinWith_single] at hrec
      rw [hrec]
      simp
    next =>
      have hw : goodWord w := hws w (by simp)
      rw [← joinWith_append_single ' ' w cs hne]
      rw [ih (cs ++ [w])
        (fun d hd => by
          rcases List.mem_append.mp hd with hd' | hd'
          · exact hcs d hd'
          · simp only [List.mem_singleton] at hd'
            subst hd'
            exact hw)
        (fun v hv => hws v (by simp [hv])) (by simp)]
      simp

/-- Every line emitted by `wrapLine` is either blank, or a space-joined
group of the line's own words that fits in `width`, or a single word. -/
theorem wrapLine_emits (width : Int) (line : Str) :
    ∀ l ∈ wrapLine width line, l = [] ∨
      ∃ ds, l = joinWith ' ' ds ∧ (∀ d ∈ ds, goodWord d) ∧ ds ≠ [] ∧
        (ds.length = 1 ∨ (l.length : Int) ≤ width) ∧ ∀ d ∈ ds, d ∈ fields line := by
  intro l hl
  rw [wrapLine] at hl
  split at hl
  next => simpa using Or.inl (by simpa using hl)
  next w ws hf =>
    right
    have hgood : ∀ d ∈ fields line, goodWord d := fields_good
    rw [hf] at hgood
    rw [← joinWith_single ' ' w] at hl
    obtain ⟨ds, h1, h2, h3, h4, h5⟩ :=
      greedy_emits width ws [w] (by simpa using hgood w (by simp))
        (fun v hv => hgood v (by simp [hv])) (by simp) (Or.inl rfl) l hl
    refine ⟨ds, h1, h2, h3, h4, fun d hd => ?_⟩
    have := h5 d hd
    rw [hf]
    simpa using this

theorem wrapLine_words (width : Int) (line : Str) :
    (wrapLine width line).flatMap fields = fields line := by
  rw [wrapLine]
  split
  next hf =>
    rw [hf]
    rfl
  next w ws hf =>
    have hgood : ∀ d ∈ fields line, goodWord d := fields_good
    rw [hf] at hgood
    have hrec := greedy_words width ws [w] (by simpa using hgood w (by simp))
      (fun v hv => hgood v (by simp [hv])) (by simp)
    rw [joinWith_single] at hrec
    rw [hrec, hf]
    simp

theorem wrapText_pos (text : Str) (width : Int) (hw : 0 < width) :
    wrapText text width =
      ((splitChar '\n' text).flatMap (wrapLine width)).flatMap
        (fun l => l ++ ['\n']) := by
  rw [wrapText, if_neg (by omega)]

theorem wrapLine_no_newline (width : Int) (line : Str) :
    ∀ l ∈ wrapLine width line, '\n' ∉ l := by
  intro l hl
  rcases wrapLine_emits width line l hl with rfl | ⟨ds, rfl, h2, -, -, -⟩
  · simp
  · exact newline_not_mem_joinWith h2

theorem splitChar_wrapText (text : Str) (width : Int) (hw : 0 < width) :
    splitChar '\n' (wrapText text width) =
      (splitChar '\n' text).flatMap (wrapLine width) ++ [[]] := by
  rw [wrapText_pos text width hw]
  apply splitChar_render
  intro l hl
  obtain ⟨line, hline, hl'⟩ := List.mem_flatMap.mp hl
  exact wrapLine_no_newline width line l hl'

/-- C2: wrapped line-width bound.  For `width > 0`, every line of
`wrapText text width` either has at most `width` characters or is a single
whitespace-delimited word of `text`, emitted unsplit on its own line. -/
theorem wrapText_line_width (text : Str) (width : Int) (hw : 0 < width) :
    ∀ l ∈ splitChar '\n' (wrapText text width),
      (l.length : Int) ≤ width ∨ l ∈ (splitChar '\n' text).flatMap fields := by
  intro l hl
  rw [splitChar_wrapText text width hw] at hl
  rcases List.mem_append.mp hl with hl' | hl'
  · obtain ⟨line, hline, hl''⟩ := List.mem_flatMap.mp hl'
    rcases wrapLine_emits width line l hl'' with rfl | ⟨ds, h1, h2, h3, h4, h5⟩
    · left
      simp only [List.length_nil, Int.natCast_zero]
      omega
    · rcases h4 with hone | hle
      · right
        obtain ⟨d, hd⟩ := List.length_eq_one.mp hone
        subst hd
        rw [joinWith_single] at h1
        subst h1
        exact List.mem_flatMap.mpr ⟨line, hline, h5 l (by simp)⟩
      · exact Or.inl hle
  · simp only [List.mem_singleton] at hl'
    subst hl'
    left
    simp only [List.length_nil, Int.natCast_zero]
    omega

/-- Witness for C2 at `text = "aa bb cc"`, `width = 5`, line `"aa bb"`. -/
theorem wrapText_line_width_witness :
    ((0 : Int) < 5) ∧
      (((str "aa bb").length : Int) ≤ 5 ∨
        str "aa bb" ∈ (splitChar '\n' (str "aa bb cc")).flatMap fields) :=
  ⟨by decide,
    wrapText_line_width (str "aa bb cc") 5 (by decide) (str "aa bb") (by decide)⟩

theorem flatMap_eq_self {α : Type} (f : α → List α) :
    ∀ ls : List α, (∀ l ∈ ls, f l = [l]) → ls.flatMap f = ls := by
  intro ls
  induction ls with
  | nil => intro _; rfl
  | cons x xs ih =>
    intro h
    rw [List.flatMap_cons, h x (by simp), ih (fun l hl => h l (by simp [hl]))]
    rfl

theorem wrapLine_fixed (width : Int) {l : Str}
    (h : l = [] ∨ ∃ ds, l = joinWith ' ' ds ∧ (∀ d ∈ ds, goodWord d) ∧
      ds ≠ [] ∧ (ds.length = 1 ∨ (l.length : Int) ≤ width)) :
    wrapLine width l = [l] := by
  rcases h with rfl | ⟨ds, rfl, hgood, hne, hfit⟩
  · rfl
  · cases ds with
    | nil => exact absurd rfl hne
    | cons d ds' =>
      rw [wrapLine, fields_joinWith_words hgood]
      show greedy width d ds' = [joinWith ' ' (d :: ds')]
      cases ds' with
      | nil => rw [joinWith_single]; rfl
      | cons e es =>
        rcases hfit with hone | hle
        · simp at hone
        · have harith : (d.length : Int) +
              (((e :: es).map (fun w => w.length + 1)).sum : Nat) ≤ width := by
            have hlen := joinWith_length ' ' d (e :: es)
            rw [hlen] at hle
            omega
          rw [greedy_fits width (e :: es) d harith]
          simp [joinWith]

/-- C8 counterexample: wrapping is not idempotent — `WrapText` always
appends a trailing newline, so re-wrapping "a" at width 5 yields "a\n\n"
while a single wrap yields "a\n". -/
theorem wrapText_not_idempotent :
    wrapText (wrapText (str "a") 5) 5 ≠ wrapText (str "a") 5 := by decide

/-- C8 (amended): for `width > 0`, re-wrapping reproduces every line break
of the wrapped text and appends exactly one extra trailing blank line;
for `width ≤ 0` wrapping is the identity, hence idempotent. -/
theorem wrapText_rewrap (text : Str) (width : Int) (hw : 0 < width) :
    wrapText (wrapText text width) width = wrapText text width ++ ['\n'] := by
  have hE : ∀ l ∈ (splitChar '\n' text).flatMap (wrapLine width),
      wrapLine width l = [l] := by
    intro l hl
    obtain ⟨line, hline, hl'⟩ := List.mem_flatMap.mp hl
    apply wrapLine_fixed
    rcases wrapLine_emits width line l hl' with h | ⟨ds, h1, h2, h3, h4, h5⟩
    · exact Or.inl h
    · exact Or.inr ⟨ds, h1, h2, h3, h4⟩
  conv_lhs => rw [wrapText_pos _ width hw, splitChar_wrapText text width hw]
  rw [List.flatMap_append, flatMap_eq_self _ _ hE, List.flatMap_append,
    wrapText_pos text width hw]
  rfl

/-- Witness for the amended C8 at `text = "hi"`, `width = 5`. -/
theorem wrapText_rewrap_witness :
    ((0 : Int) < 5) ∧
      wrapText (wrapText (str "hi") 5) 5 = wrapText (str "hi") 5 ++ ['\n'] :=
  ⟨by decide, wrapText_rewrap (str "hi") 5 (by decide)⟩

theorem flatMap_render_fields (ls : List Str) :
    fields (ls.flatMap (fun l => l ++ ['\n'])) = ls.flatMap fields := by
  induction ls with
  | nil => rfl
  | cons l ls' ih =>
    rw [List.flatMap_cons, List.append_assoc, List.singleton_append,
      fields_space_append (by decide), ih, List.flatMap_cons]

/-- C10: word preservation under wrapping.  For `width > 0`, splitting the
wrapped text at whitespace yields exactly the word sequence of the original
text: wrapping only rearranges whitespace and never drops, duplicates,
splits, or reorders a word. -/
theorem wrapText_preserves_words (text : Str) (width : Int) (hw : 0 < width) :
    fields (wrapText text width) = fields text := by
  rw [wrapText_pos text width hw, flatMap_render_fields, List.flatMap_assoc]
  simp only [wrapLine_words]
  exact (fields_eq_flatMap_lines text).symm

/-- Witness for C10 at `text = "a  b"`, `width = 3`. -/
theorem wrapText_preserves_words_witness :
    ((0 : Int) < 3) ∧ fields (wrapText (str "a  b") 3) = fields (str "a  b") :=
  ⟨by decide, wrapText_preserves_words (str "a  b") 3 (by decide)⟩

/-- The `match` record built inside Go `HighlightText`
(`pkg/utils/utils.go`): a half-open span `[start, stop)` tagged with its
origin (`stop` models the Go field `end`, a reserved word in Lean). -/
structure Span where
  start : Nat
  stop : Nat
  isURL : Bool
  isCurrentSearch : Bool
deriving DecidableEq

instance : Inhabited Span := ⟨⟨0, 0, false, false⟩⟩

/-- Span-list construction of Go `HighlightText`: one span per search-match
offset, with `end = start + len(query)` and current iff its index equals
`currentMatch`; then one span per URL match pair, in input order. -/
def buildSpans (query : Str) (searchMatches : List Nat) (currentMatch : Nat)
    (urlMatches : List (Nat × Nat)) : List Span :=
  searchMatches.enum.map
      (fun p => ⟨p.2, p.2 + query.length, false, p.1 == currentMatch⟩)
    ++ urlMatches.map (fun u => ⟨u.1, u.2, true, false⟩)

/-- Literal transcription of the sorting loops in Go `HighlightText`
(`for i := range allMatches { for j := i+1; ...; if a[i].start > a[j].start
{ swap } }`), with list reads/writes via `getD`/`set`.  `bubbleInner` is one
run of the inner loop for a fixed `i`, starting at position `j`. -/
def bubbleInner (l : List Span) (i j : Nat) : List Span :=
  if j < l.length then
    bubbleInner
      (if (l.getD i default).start > (l.getD j default).start
        then (l.set i (l.getD j default)).set j (l.getD i default)
        else l) i (j + 1)
  else l
termination_by l.length - j
decreasing_by
  split
  · simp only [List.length_set]
    omega
  · omega

theorem bubbleInner_length (l : List Span) (i j : Nat) :
    (bubbleInner l i j).length = l.length := by
  induction l, i, j using bubbleInner.induct with
  | case1 l i j hj ih =>
    rw [bubbleInner, if_pos hj]
    refine Eq.trans ih ?_
    split
    · simp only [List.length_set]
    · rfl
  | case2 l i j hj =>
    rw [bubbleInner, if_neg hj]

/-- The outer loop of `HighlightText`'s sort. -/
def bubbleOuter (l : List Span) (i : Nat) : List Span :=
  if i < l.length then bubbleOuter (bubbleInner l i (i + 1)) (i + 1) else l
termination_by l.length - i
decreasing_by
  rw [bubbleInner_length]
  omega

/-- The sorting phase of Go `HighlightText`: the in-place exchange sort of
the unified span list, by ascending `start`. -/
def sortSpans (l : List Span) : List Span := bubbleOuter l 0

/-- Functional reading of one inner-loop pass: `x` is the value currently
at the outer position `i`; scanning the later elements, each one with a
smaller `start` is swapped into position `i` (the previous holder moving to
that later position).  Returns the final holder and the final suffix. -/
def selectMin (x : Span) : List Span → Span × List Span
  | [] => (x, [])
  | y :: ys =>
    if x.start > y.start then
      ((selectMin y ys).1, x :: (selectMin y ys).2)
    else
      ((selectMin x ys).1, y :: (selectMin x ys).2)

theorem selectMin_snd_length (x : Span) :
    ∀ l : List Span, (selectMin x l).2.length = l.length := by
  intro l
  induction l generalizing x with
  | nil => rfl
  | cons y ys ih =>
    rw [selectMin]
    split <;> simp [ih]

/-- Fuel-indexed selection sort; with fuel `l.length` it is the functional
reading of the double loop (see `sortSpans_eq_selSort`). -/
def selSortFuel : Nat → List Span → List Span
  | 0, l => l
  | _ + 1, [] => []
  | fuel + 1, x :: xs =>
    (selectMin x xs).1 :: selSortFuel fuel (selectMin x xs).2

def selSort (l : List Span) : List Span := selSortFuel l.length l

theorem selSort_cons (x : Span) (xs : List Span) :
    selSort (x :: xs) = (selectMin x xs).1 :: selSort (selectMin x xs).2 := by
  rw [selSort, selSort, List.length_cons, selSortFuel, selectMin_snd_length]

theorem getD_append_length (pre : List Span) (cur : Span) (rest : List Span) :
    (pre ++ cur :: rest).getD pre.length default = cur := by
  induction pre with
  | nil => rfl
  | cons p ps ih => simpa using ih

theorem set_append_length (pre : List Span) (cur y : Span) (rest : List Span) :
    (pre ++ cur :: rest).set pre.length y = pre ++ y :: rest := by
  induction pre with
  | nil => rfl
  | cons p ps ih => simp [ih]

theorem bubbleInner_eq (todo : List Span) :
    ∀ (pre mid : List Span) (cur : Span),
      bubbleInner (pre ++ cur :: (mid ++ todo)) pre.length
          (pre.length + 1 + mid.length) =
        pre ++ (selectMin cur todo).1 :: (mid ++ (selectMin cur todo).2) := by
  induction todo with
  | nil =>
    intro pre mid cur
    rw [bubbleInner,
      if_neg (by
        simp only [List.length_append, List.length_cons, List.append_nil]
        omega)]
    simp [selectMin]
  | cons y ys ih =>
    intro pre mid cur
    have hlen2 : (pre ++ cur :: mid).length = pre.length + 1 + mid.length := by
      simp only [List.length_append, List.length_cons]
      omega
    have hsplit : pre ++ cur :: (mid ++ y :: ys) = (pre ++ cur :: mid) ++ y :: ys := by
      simp
    have hj : pre.length + 1 + mid.length <
        (pre ++ cur :: (mid ++ y :: ys)).length := by
      simp only [List.length_append, List.length_cons]
      omega
    rw [bubbleInner, if_pos hj]
    have hgi : (pre ++ cur :: (mid ++ y :: ys)).getD pre.length default = cur :=
      getD_append_length pre cur (mid ++ y :: ys)
    have hgj : (pre ++ cur :: (mid ++ y :: ys)).getD
        (pre.length + 1 + mid.length) default = y := by
      rw [hsplit, ← hlen2]
      exact getD_append_length (pre ++ cur :: mid) y ys
    rw [hgi, hgj]
    by_cases hc : cur.start > y.start
    · rw [if_pos hc]
      have hset1 : (pre ++ cur :: (mid ++ y :: ys)).set pre.length y =
          pre ++ y :: (mid ++ y :: ys) :=
        set_append_length pre cur y (mid ++ y :: ys)
      have hset2 : (pre ++ y :: (mid ++ y :: ys)).set
          (pre.length + 1 + mid.length) cur = pre ++ y :: (mid ++ cur :: ys) := by
        have h1 : pre ++ y :: (mid ++ y :: ys) = (pre ++ y :: mid) ++ y :: ys := by
          simp
        have h2 : (pre ++ y :: mid).length = pre.length + 1 + mid.length := by
          simp only [List.length_append, List.length_cons]
          omega
        rw [h1, ← h2, set_append_length (pre ++ y :: mid) y cur ys]
        simp
      rw [hset1, hset2]
      have h3 : pre ++ y :: (mid ++ cur :: ys) =
          pre ++ y :: ((mid ++ [cur]) ++ ys) := by simp
      have h4 : pre.length + 1 + mid.length + 1 =
          pre.length + 1 + (mid ++ [cur]).length := by
        simp only [List.length_append, List.length_cons, List.length_nil]
        omega
      rw [h3, h4, ih pre (mid ++ [cur]) y]
      rw [selectMin, if_pos hc]
      simp
    · rw [if_neg hc]
      have h3 : pre ++ cur :: (mid ++ y :: ys) =
          pre ++ cur :: ((mid ++ [y]) ++ ys) := by simp
      have h4 : pre.length + 1 + mid.length + 1 =
          pre.length + 1 + (mid ++ [y]).length := by
        simp only [List.length_append, List.length_cons, List.length_nil]
        omega
      rw [h3, h4, ih pre (mid ++ [y]) cur]
      rw [selectMin, if_neg hc]
      simp

theorem bubbleOuter_eq :
    ∀ (suffix pre : List Span),
      bubbleOuter (pre ++ suffix) pre.length = pre ++ selSort suffix := by
  have main : ∀ n (suffix pre : List Span), suffix.length = n →
      bubbleOuter (pre ++ suffix) pre.length = pre ++ selSort suffix := by
    intro n
    induction n using Nat.strong_induction_on with
    | _ n ihn =>
      intro suffix pre hlen
      cases suffix with
      | nil =>
        rw [bubbleOuter, if_neg (by simp)]
        simp [selSort, selSortFuel]
      | cons cur todo =>
        simp only [List.length_cons] at hlen
        rw [bubbleOuter,
          if_pos (by simp only [List.length_append, List.length_cons]; omega)]
        have h0 : pre ++ cur :: todo = pre ++ cur :: (([] : List Span) ++ todo) := by
          simp
        have h1 : pre.length + 1 = pre.length + 1 + ([] : List Span).length := by
          simp
        rw [h0, h1, bubbleInner_eq todo pre [] cur]
        simp only [List.nil_append, List.length_nil, Nat.add_zero]
        have h2 : pre ++ (selectMin cur todo).1 :: (selectMin cur todo).2 =
            (pre ++ [(selectMin cur todo).1]) ++ (selectMin cur todo).2 := by
          simp
        have h3 : pre.length + 1 = (pre ++ [(selectMin cur todo).1]).length := by
          simp
        rw [h2, h3, ihn ((selectMin cur todo).2.length) ?_ _ _ rfl]
        · rw [selSort_cons]
          simp
        · rw [selectMin_snd_length]
          omega
  intro suffix pre
  exact main suffix.length suffix pre rfl

theorem sortSpans_eq_selSort (l : List Span) : sortSpans l = selSort l := by
  have h := bubbleOuter_eq l []
  simpa [sortSpans] using h

theorem selectMin_perm (x : Span) :
    ∀ l : List Span, (x :: l).Perm ((selectMin x l).1 :: (selectMin x l).2) := by
  intro l
  induction l generalizing x with
  | nil => exact List.Perm.refl _
  | cons y ys ih =>
    rw [selectMin]
    split
    · exact ((ih y).cons x).trans (List.Perm.swap _ _ _)
    · exact (List.Perm.swap _ _ _).trans (((ih x).cons y).trans (List.Perm.swap _ _ _))

theorem selectMin_min (x : Span) :
    ∀ l : List Span, ∀ z ∈ x :: l, (selectMin x l).1.start ≤ z.start := by
  intro l
  induction l generalizing x with
  | nil =>
    intro z hz
    simp only [List.mem_singleton] at hz
    subst hz
    exact Nat.le_refl _
  | cons y ys ih =>
    intro z hz
    rw [selectMin]
    split
    next hc =>
      rcases List.mem_cons.mp hz with rfl | hz'
      · exact Nat.le_trans (ih y y (by simp)) (Nat.le_of_lt hc)
      · exact ih y z hz'
    next hc =>
      rcases List.mem_cons.mp hz with rfl | hz'
      · exact ih z z (by simp)
      · rcases List.mem_cons.mp hz' with rfl | hz''
        · exact Nat.le_trans (ih x x (by simp)) (Nat.le_of_not_lt hc)
        · exact ih x z (by simp [hz''])

theorem selSort_perm : ∀ l : List Span, l.Perm (selSort l) := by
  have main : ∀ n (l : List Span), l.length = n → l.Perm (selSort l) := by
    intro n
    induction n using Nat.strong_induction_on with
    | _ n ihn =>
      intro l hlen
      cases l with
      | nil => exact List.Perm.refl _
      | cons x xs =>
        rw [selSort_cons]
        refine (selectMin_perm x xs).trans (List.Perm.cons _ ?_)
        refine ihn (selectMin x xs).2.length ?_ _ rfl
        rw [selectMin_snd_length]
        simp only [List.length_cons] at hlen
        omega
  intro l
  exact main l.length l rfl

theorem selSort_sorted :
    ∀ l : List Span, List.Sorted (fun a b : Span => a.start ≤ b.start) (selSort l) := by
  have main : ∀ n (l : List Span), l.length = n →
      List.Sorted (fun a b : Span => a.start ≤ b.start) (selSort l) := by
    intro n
    induction n using Nat.strong_induction_on with
    | _ n ihn =>
      intro l hlen
      cases l with
      | nil => exact List.sorted_nil
      | cons x xs =>
        rw [selSort_cons, List.sorted_cons]
        constructor
        · intro b hb
          have hb1 : b ∈ (selectMin x xs).2 :=
            ((selSort_perm (selectMin x xs).2).mem_iff).mpr hb
          have hb2 : b ∈ x :: xs :=
            ((selectMin_perm x xs).mem_iff).mpr (List.mem_cons_of_mem _ hb1)
          exact selectMin_min x xs b hb2
        · refine ihn (selectMin x xs).2.length ?_ _ rfl
          rw [selectMin_snd_length]
          simp only [List.length_cons] at hlen
          omega
  intro l
  exact main l.length l rfl

/-- Rendering styles of `HighlightText`, abstracting the terminal colour
functions (`urlColor`, `currentMatchColor`, `searchMatchColor`,
`defaultColor`). -/
inductive Style
  | defaultStyle
  | url
  | currentMatch
  | searchMatch
deriving DecidableEq

/-- One styled run of text written by `HighlightText` to its builder. -/
structure Segment where
  text : Str
  style : Style
deriving DecidableEq

/-- Style choice of the emission loop: URL first, then current match, then
plain search match. -/
def styleOf (m : Span) : Style :=
  if m.isURL then .url
  else if m.isCurrentSearch then .currentMatch
  else .searchMatch

/-- Go slice `content[a:b]`. -/
def slice (s : Str) (a b : Nat) : Str := (s.take b).drop a

/-- The emission loop of Go `HighlightText`: walk the spans keeping
`lastIndex`; when a span starts after `lastIndex` first emit the gap with
the default style, then the span's own styled text, advancing `lastIndex`
to the span's end; finally emit the default-styled tail, if non-empty. -/
def emitSegs (content : Str) : Nat → List Span → List Segment
  | last, [] =>
    if last < content.length then [⟨content.drop last, .defaultStyle⟩] else []
  | last, m :: ms =>
    (if m.start > last then [⟨slice content last m.start, .defaultStyle⟩] else [])
      ++ ⟨slice content m.start m.stop, styleOf m⟩ :: emitSegs content m.stop ms

/-- Models Go `HighlightText` (`pkg/utils/utils.go`) as the ordered list of
styled segments it writes: build the unified span list, sort it with the
exchange sort, then emit gap/span/tail segments. -/
def highlightText (content query : Str) (searchMatches : List Nat)
    (currentMatch : Nat) (urlMatches : List (Nat × Nat)) : List Segment :=
  emitSegs content 0
    (sortSpans (buildSpans query searchMatches currentMatch urlMatches))

/-- The text of a segment list, styling ignored. -/
def renderSegs (segs : List Segment) : Str := segs.flatMap Segment.text

/-- Spans listed from position `last` are in bounds, ordered and pairwise
non-overlapping: each starts at or after `last`, ends no earlier than it
starts and within `content`, and the rest chain from its end. -/
def chainOK (content : Str) : Nat → List Span → Bool
  | _, [] => true
  | last, s :: ss =>
    decide (last ≤ s.start) && decide (s.start ≤ s.stop) &&
      decide (s.stop ≤ content.length) && chainOK content s.stop ss

theorem drop_eq_slice_append {s : Str} {a b : Nat} (hab : a ≤ b)
    (hb : b ≤ s.length) : s.drop a = slice s a b ++ s.drop b := by
  conv_lhs => rw [← List.take_append_drop b s]
  rw [List.drop_append_eq_append_drop, List.length_take]
  have h0 : a - min b s.length = 0 := by omega
  rw [h0, List.drop_zero, slice]

theorem emitSegs_cover (content : Str) :
    ∀ (spans : List Span) (last : Nat), chainOK content last spans = true →
      last ≤ content.length →
      renderSegs (emitSegs content last spans) = content.drop last := by
  intro spans
  induction spans with
  | nil =>
    intro last _ hle
    rw [emitSegs]
    split
    next => simp [renderSegs]
    next h =>
      have hlast : last = content.length := by omega
      subst hlast
      simp [renderSegs]
  | cons m ms ih =>
    intro last hchain hle
    rw [chainOK] at hchain
    simp only [Bool.and_eq_true, decide_eq_true_eq] at hchain
    obtain ⟨⟨⟨h1, h2⟩, h3⟩, h4⟩ := hchain
    rw [emitSegs]
    have hrest := ih m.stop h4 h3
    split
    next hgap =>
      simp only [renderSegs, List.flatMap_append, List.flatMap_cons,
        List.flatMap_nil, List.append_nil] at hrest ⊢
      rw [hrest,
        drop_eq_slice_append (Nat.le_of_lt hgap) (Nat.le_trans h2 h3),
        drop_eq_slice_append h2 h3]
    next hgap =>
      have hstart : m.start = last := by omega
      subst hstart
      simp only [renderSegs, List.flatMap_append, List.flatMap_cons,
        List.flatMap_nil, List.append_nil, List.nil_append] at hrest ⊢
      rw [hrest, drop_eq_slice_append h2 h3]

/-- C1: coverage invariant of the highlight plan.  Whenever the sorted span
list derived from the inputs is within bounds, pairwise non-overlapping and
consistently ordered (`chainOK`), concatenating the text of the emitted
gap, span and tail segments, styling ignored, reproduces `content` exactly,
with no gaps and no overlaps. -/
theorem highlightText_coverage (content query : Str) (searchMatches : List Nat)
    (currentMatch : Nat) (urlMatches : List (Nat × Nat))
    (h : chainOK content 0
      (sortSpans (buildSpans query searchMatches currentMatch urlMatches)) = true) :
    renderSegs (highlightText content query searchMatches currentMatch urlMatches) =
      content := by
  rw [highlightText, emitSegs_cover content _ 0 h (Nat.zero_le _), List.drop_zero]

/-- Witness for C1: content "x www y", query "w", one search match at 2
(current), one URL span [4,5). -/
theorem highlightText_coverage_witness :
    chainOK (str "x www y") 0
        (sortSpans (buildSpans (str "w") [2] 0 [(4, 5)])) = true ∧
      renderSegs (highlightText (str "x www y") (str "w") [2] 0 [(4, 5)]) =
        str "x www y" := by
  have h : chainOK (str "x www y") 0
      (sortSpans (buildSpans (str "w") [2] 0 [(4, 5)])) = true := by
    rw [sortSpans_eq_selSort]
    decide
  exact ⟨h, highlightText_coverage (str "x www y") (str "w") [2] 0 [(4, 5)] h⟩

/-- C4 counterexample: insertion order is [search span at 5, URL span at 5,
URL span at 2]; a stable sort by start would keep the search span before
the equal-start URL span, but the exchange sort of `HighlightText` swaps
position 0 with the later URL span at 2 and thereby emits the URL span at 5
before the search span at 5. -/
theorem sortSpans_unstable :
    sortSpans (buildSpans (str "ab") [5] 0 [(5, 7), (2, 3)]) =
        [⟨2, 3, true, false⟩, ⟨5, 7, true, false⟩, ⟨5, 7, false, true⟩] ∧
      sortSpans (buildSpans (str "ab") [5] 0 [(5, 7), (2, 3)]) ≠
        [⟨2, 3, true, false⟩, ⟨5, 7, false, true⟩, ⟨5, 7, true, false⟩] := by
  constructor <;> rw [sortSpans_eq_selSort] <;> decide

/-- C4 (amended): the exchange sort processes spans in ascending order of
`start` — it permutes the unified list (search/current spans first, then
URL spans) into a list sorted by `start` — but when two spans share a start
the insertion order is not always preserved: the sort is unstable
(see `sortSpans_unstable`). -/
theorem sortSpans_sorts (query : Str) (searchMatches : List Nat)
    (currentMatch : Nat) (urlMatches : List (Nat × Nat)) :
    (buildSpans query searchMatches currentMatch urlMatches).Perm
        (sortSpans (buildSpans query searchMatches currentMatch urlMatches)) ∧
      List.Sorted (fun a b : Span => a.start ≤ b.start)
        (sortSpans (buildSpans query searchMatches currentMatch urlMatches)) := by
  rw [sortSpans_eq_selSort]
  exact ⟨selSort_perm _, selSort_sorted _⟩

/-- The view states of `pkg/model/model.go`. -/
inductive AppState
  | wikiSelectionView
  | searchResultsView
  | articleView
  | searchArticleView
deriving DecidableEq

/-- The fields of the bubbles `textinput.Model` that the state machine
reads or writes (focus, value, prompt, character limit).  Editing internals
are abstracted: see `typeKey`. -/
structure TextInput where
  focused : Bool
  value : Str
  prompt : Str
  charLimit : Nat
deriving DecidableEq

/-- The fields of the bubbles `viewport.Model` that the model touches:
size, the content set with `SetContent` and the offset set with
`SetYOffset`.  The viewport's own scroll-key handling is abstracted. -/
structure Viewport where
  width : Int
  height : Int
  yoffset : Nat
  content : Str
deriving DecidableEq

/-- Models the `Model` struct of `pkg/model/model.go`.  `results` keeps the
search-result titles; `urlRegex` is the compiled URL regular expression,
modelled by its `FindAllStringIndex` function. -/
structure Model where
  state : AppState
  textInput : TextInput
  results : List Str
  cursor : Nat
  statusMsg : Str
  selectedTitle : Str
  articleContent : Str
  searchType : Str
  wikiOptions : List Str
  wikiCursor : Nat
  viewport : Viewport
  searchQuery : Str
  matchIndexes : List Nat
  currentMatchIndex : Nat
  urlRegex : Str → List (Nat × Nat)
  urlMatches : List (Nat × Nat)

/-- The bubbletea messages handled by `Update`: window resizes, key presses
(identified by their `String()` name), and the two async completion
messages `wiki.SearchMsg` and `wiki.ArticleMsg` (`Err` modelled as an
optional error string). -/
inductive Msg
  | windowSize (w h : Int)
  | key (k : String)
  | searchMsg (results : List Str) (err : Option Str)
  | articleMsg (content : Str) (err : Option Str)

/-- The commands `Update` returns: `tea.Quit` (for "o" after the
fire-and-forget browser launch is attempted), the two async requests, or
none (covering `nil` and the inert component commands). -/
inductive Cmd
  | none
  | quit
  | performSearch (term searchType : Str)
  | fetchArticle (title searchType : Str)
deriving DecidableEq

/-- The trailing `m.textInput.Update(msg)` of `Update`, for key messages
that fall through the switch without returning: a focused input inserts
single-character keys up to its character limit; every other tracked field
is unchanged. -/
def typeKey (m : Model) (k : String) : Model :=
  if m.textInput.focused ∧ k.data.length = 1 then
    if m.textInput.value.length < m.textInput.charLimit then
      { m with textInput :=
          { m.textInput with value := m.textInput.value ++ k.data } }
    else m
  else m

/-- The `tea.WindowSizeMsg` case of `Update` (`pkg/model/model.go`).
Across all the `update*` cases: branches that `return` in Go produce their
pair directly; key branches that fall through the switch end with
`typeKey`; the trailing component updates are the identity for non-key
messages. -/
def updateWindowSize (m : Model) (w h : Int) : Model × Cmd :=
  ({ m with viewport :=
      { m.viewport with
        width := w
        height := h - 4
        content := wrapText m.articleContent w } }, Cmd.none)

/-- The `tea.KeyMsg` switch of `Update`. -/
def updateKey (m : Model) (k : String) : Model × Cmd :=
  if k = "ctrl+c" ∨ k = "q" then (m, Cmd.quit)
    else if k = "esc" then
      match m.state with
      | .articleView | .searchArticleView =>
        ({ m with
            state := .searchResultsView
            articleContent := []
            textInput := { m.textInput with focused := true } }, Cmd.none)
      | .searchResultsView =>
        ({ m with
            state := .wikiSelectionView
            textInput := { m.textInput with focused := false } }, Cmd.none)
      | .wikiSelectionView => (m, Cmd.quit)
    else if k = "/" then
      if m.state = .articleView then
        ({ m with
            state := .searchArticleView
            textInput :=
              { m.textInput with
                focused := true
                prompt := str "/"
                charLimit := 100 } }, Cmd.none)
      else (typeKey m k, Cmd.none)
    else if k = "n" then
      if m.state = .articleView ∧ m.matchIndexes ≠ [] then
        (typeKey
          { m with
            currentMatchIndex := (m.currentMatchIndex + 1) % m.matchIndexes.length
            viewport :=
              { m.viewport with
                yoffset := calculateLineFromIndex m.articleContent
                  (m.matchIndexes.getD
                    ((m.currentMatchIndex + 1) % m.matchIndexes.length) 0) } } k,
          Cmd.none)
      else (typeKey m k, Cmd.none)
    else if k = "p" then
      if m.state = .articleView ∧ m.matchIndexes ≠ [] then
        (typeKey
          { m with
            currentMatchIndex :=
              (m.currentMatchIndex + m.matchIndexes.length - 1) % m.matchIndexes.length
            viewport :=
              { m.viewport with
                yoffset := calculateLineFromIndex m.articleContent
                  (m.matchIndexes.getD
                    ((m.currentMatchIndex + m.matchIndexes.length - 1) %
                      m.matchIndexes.length) 0) } } k,
          Cmd.none)
      else (typeKey m k, Cmd.none)
    else if k = "up" ∨ k = "k" then
      match m.state with
      | .searchResultsView =>
        (typeKey (if m.cursor > 0 then { m with cursor := m.cursor - 1 } else m) k,
          Cmd.none)
      | .wikiSelectionView =>
        (typeKey (if m.wikiCursor > 0 then { m with wikiCursor := m.wikiCursor - 1 }
          else m) k, Cmd.none)
      | _ => (typeKey m k, Cmd.none)
    else if k = "down" ∨ k = "j" then
      match m.state with
      | .searchResultsView =>
        (typeKey (if (m.cursor : Int) < (m.results.length : Int) - 1
          then { m with cursor := m.cursor + 1 } else m) k, Cmd.none)
      | .wikiSelectionView =>
        (typeKey (if (m.wikiCursor : Int) < (m.wikiOptions.length : Int) - 1
          then { m with wikiCursor := m.wikiCursor + 1 } else m) k, Cmd.none)
      | _ => (typeKey m k, Cmd.none)
    else if k = "ctrl+u" ∨ k = "ctrl+d" then
      if m.state = .articleView then (m, Cmd.none)
      else (typeKey m k, Cmd.none)
    else if k = "o" then
      if m.state = .searchResultsView ∧ m.results ≠ [] then (m, Cmd.quit)
      else (typeKey m k, Cmd.none)
    else if k = "enter" then
      if m.state = .wikiSelectionView then
        ({ m with
            searchType := m.wikiOptions.getD m.wikiCursor []
            state := .searchResultsView
            textInput := { m.textInput with focused := true } }, Cmd.none)
      else if m.state = .searchArticleView then
        ({ m with
            searchQuery := m.textInput.value
            matchIndexes := findMatches m.articleContent m.textInput.value
            currentMatchIndex := 0
            textInput := { m.textInput with focused := false }
            state := .articleView
            viewport :=
              if findMatches m.articleContent m.textInput.value ≠ [] then
                { m.viewport with
                  yoffset := calculateLineFromIndex m.articleContent
                    ((findMatches m.articleContent m.textInput.value).getD 0 0) }
              else m.viewport }, Cmd.none)
      else if m.textInput.focused then
        if m.textInput.value ≠ [] then
          ({ m with
              statusMsg := str "Searching..."
              textInput := { m.textInput with focused := false } },
            Cmd.performSearch m.textInput.value m.searchType)
        else (typeKey m k, Cmd.none)
      else if m.state = .searchResultsView ∧ m.results ≠ [] then
        ({ m with
            selectedTitle := m.results.getD m.cursor []
            statusMsg := str "Fetching article..." },
          Cmd.fetchArticle (m.results.getD m.cursor []) m.searchType)
      else (typeKey m k, Cmd.none)
    else (typeKey m k, Cmd.none)

/-- The `wiki.SearchMsg` case of `Update`. -/
def updateSearchMsg (m : Model) (results : List Str) (err : Option Str) :
    Model × Cmd :=
  match err with
  | some e =>
    ({ m with
        statusMsg := str "Error: " ++ e
        textInput := { m.textInput with focused := true } }, Cmd.none)
  | Option.none =>
    ({ m with
        results := results
        statusMsg := str "Found " ++ (Nat.repr results.length).data ++
          str " results for '" ++ m.textInput.value ++
          str "'. Press Enter to select one."
        cursor := 0 }, Cmd.none)

/-- The `wiki.ArticleMsg` case of `Update`. -/
def updateArticleMsg (m : Model) (content : Str) (err : Option Str) :
    Model × Cmd :=
  match err with
  | some e => ({ m with statusMsg := str "Error: " ++ e }, Cmd.none)
  | Option.none =>
    ({ m with
        state := .articleView
        articleContent := content
        urlMatches := m.urlRegex content
        statusMsg := str "Displaying article: " ++ m.selectedTitle
        viewport := { m.viewport with
          content := wrapText content m.viewport.width } }, Cmd.none)

/-- Models `Update` (`pkg/model/model.go`): dispatch on the message type. -/
def update (m : Model) (msg : Msg) : Model × Cmd :=
  match msg with
  | .windowSize w h => updateWindowSize m w h
  | .key k => updateKey m k
  | .searchMsg results err => updateSearchMsg m results err
  | .articleMsg content err => updateArticleMsg m content err

/-- Models `model.New` together with the inputs built in `main`: the
initial model; Go fields not set explicitly take their zero values. -/
def initModel (urlRegex : Str → List (Nat × Nat)) : Model where
  state := .wikiSelectionView
  textInput := { focused := false, value := [], prompt := [], charLimit := 150 }
  results := []
  cursor := 0
  statusMsg := []
  selectedTitle := []
  articleContent := []
  searchType := []
  wikiOptions := [str "wikipedia", str "arch"]
  wikiCursor := 0
  viewport := { width := 0, height := 0, yoffset := 0, content := [] }
  searchQuery := []
  matchIndexes := []
  currentMatchIndex := 0
  urlRegex := urlRegex
  urlMatches := []

/-- The model reached from the initial model by a list of messages. -/
def run (urlRegex : Str → List (Nat × Nat)) (msgs : List Msg) : Model :=
  msgs.foldl (fun m msg => (update m msg).1) (initModel urlRegex)

theorem typeKey_proj (m : Model) (k : String) :
    (typeKey m k).state = m.state ∧ (typeKey m k).results = m.results ∧
      (typeKey m k).cursor = m.cursor ∧
      (typeKey m k).currentMatchIndex = m.currentMatchIndex ∧
      (typeKey m k).matchIndexes = m.matchIndexes ∧
      (typeKey m k).wikiCursor = m.wikiCursor ∧
      (typeKey m k).articleContent = m.articleContent ∧
      (typeKey m k).statusMsg = m.statusMsg := by
  rw [typeKey]
  split
  · split
    · exact ⟨rfl, rfl, rfl, rfl, rfl, rfl, rfl, rfl⟩
    · exact ⟨rfl, rfl, rfl, rfl, rfl, rfl, rfl, rfl⟩
  · exact ⟨rfl, rfl, rfl, rfl, rfl, rfl, rfl, rfl⟩

/-- C5: error atomicity of async completions.  A search or fetch completion
carrying a non-nil error only sets the status message to an error string
(and, for search errors, refocuses the query input): the state, results,
cursors, article content and match state are all exactly as before, and the
returned command is `none`, never quit. -/
theorem error_completion_atomic (m : Model) (e : Str) (rs : List Str) (c : Str) :
    update m (.searchMsg rs (some e)) =
        ({ m with
            statusMsg := str "Error: " ++ e
            textInput := { m.textInput with focused := true } }, Cmd.none) ∧
      update m (.articleMsg c (some e)) =
        ({ m with statusMsg := str "Error: " ++ e }, Cmd.none) ∧
      Cmd.none ≠ Cmd.quit :=
  ⟨rfl, rfl, by decide⟩

/-- A concrete model in the article view holding stale match state, used to
exhibit the behaviour of a successful fetch completion. -/
def staleMatchModel : Model :=
  { initModel (fun _ => []) with
    state := .articleView
    matchIndexes := [3]
    currentMatchIndex := 0
    searchQuery := str "x" }

/-- C6 counterexample: after a successful fetch completion the in-article
match state is NOT reset — a model holding match offsets `[3]` still holds
a non-empty offset list afterwards. -/
theorem fetch_success_no_reset :
    ((update staleMatchModel (.articleMsg (str "new article") Option.none)).1).matchIndexes
      ≠ [] := by decide

/-- C6 (amended): on a fetch completion with no error the state becomes
Article, the article content is stored, the URL spans are recomputed by the
URL regular expression over the raw (pre-wrap) article content, the status
message announces the article, and the viewport content is set to the
wrapped text; the in-article match state (query, match offsets, current
index) is left unchanged, not reset. -/
theorem fetch_success_postcondition (m : Model) (c : Str) :
    update m (.articleMsg c Option.none) =
        ({ m with
            state := .articleView
            articleContent := c
            urlMatches := m.urlRegex c
            statusMsg := str "Displaying article: " ++ m.selectedTitle
            viewport := { m.viewport with
              content := wrapText c m.viewport.width } }, Cmd.none) ∧
      ((update m (.articleMsg c Option.none)).1).matchIndexes = m.matchIndexes ∧
      ((update m (.articleMsg c Option.none)).1).currentMatchIndex = m.currentMatchIndex ∧
      ((update m (.articleMsg c Option.none)).1).searchQuery = m.searchQuery :=
  ⟨rfl, rfl, rfl, rfl⟩

/-- C7: cyclic match navigation.  In the article view with a non-empty
match list of length `n` and current index `i < n`, key "n" sets the index
to `(i+1) % n` and key "p" sets it to `(i-1+n) % n` (written `(i+n-1) % n`
over naturals). -/
theorem match_navigation_cyclic (m : Model)
    (hs : m.state = .articleView) (hne : m.matchIndexes ≠ [])
    (hlt : m.currentMatchIndex < m.matchIndexes.length) :
    ((update m (.key "n")).1).currentMatchIndex =
        (m.currentMatchIndex + 1) % m.matchIndexes.length ∧
      ((update m (.key "p")).1).currentMatchIndex =
        (m.currentMatchIndex + m.matchIndexes.length - 1) % m.matchIndexes.length := by
  constructor
  · show (updateKey m "n").1.currentMatchIndex = _
    unfold updateKey
    rw [if_neg (by decide), if_neg (by decide), if_neg (by decide),
      if_pos (⟨hs, hne⟩ : m.state = .articleView ∧ m.matchIndexes ≠ [])]
    exact (typeKey_proj _ _).2.2.2.1
  · show (updateKey m "p").1.currentMatchIndex = _
    unfold updateKey
    rw [if_neg (by decide), if_neg (by decide), if_neg (by decide),
      if_neg (by decide),
      if_pos (⟨hs, hne⟩ : m.state = .articleView ∧ m.matchIndexes ≠ [])]
    exact (typeKey_proj _ _).2.2.2.1

/-- A concrete article-view model with matches `[3, 10, 27]`. -/
def threeMatchModel : Model :=
  { initModel (fun _ => []) with
    state := .articleView
    matchIndexes := [3, 10, 27]
    currentMatchIndex := 2 }

/-- Witness for C7: with matches `[3, 10, 27]`, "n" from index 2 yields 0
and "p" from index 0 yields 2. -/
theorem match_navigation_cyclic_witness :
    (threeMatchModel.state = .articleView ∧ threeMatchModel.matchIndexes ≠ [] ∧
        threeMatchModel.currentMatchIndex < threeMatchModel.matchIndexes.length) ∧
      ((update threeMatchModel (.key "n")).1).currentMatchIndex = 0 ∧
      ((update { threeMatchModel with currentMatchIndex := 0 }
        (.key "p")).1).currentMatchIndex = 2 :=
  ⟨⟨rfl, by decide, by decide⟩,
    ((match_navigation_cyclic threeMatchModel rfl (by decide) (by decide)).1).trans
      (by decide),
    ((match_navigation_cyclic { threeMatchModel with currentMatchIndex := 0 }
      rfl (by decide) (by decide)).2).trans (by decide)⟩

/-- The result-cursor invariant: a non-empty result list implies the
cursor is a valid index. -/
def cursorInv (m : Model) : Prop := m.results ≠ [] → m.cursor < m.results.length

theorem update_results_cursor (m : Model) (msg : Msg) :
    ∀ p : Model × Cmd, update m msg = p →
      (p.1.results = m.results ∧
          (p.1.cursor = m.cursor ∨
            p.1.cursor = m.cursor - 1 ∨
            (p.1.cursor = m.cursor + 1 ∧
              (m.cursor : Int) < (m.results.length : Int) - 1))) ∨
        p.1.cursor = 0 := by
  intro p hp
  cases msg with
  | windowSize w hh =>
    subst hp
    exact Or.inl ⟨rfl, Or.inl rfl⟩
  | searchMsg rs err =>
    cases err with
    | some e =>
      subst hp
      exact Or.inl ⟨rfl, Or.inl rfl⟩
    | none =>
      subst hp
      exact Or.inr rfl
  | articleMsg c err =>
    cases err with
    | some e =>
      subst hp
      exact Or.inl ⟨rfl, Or.inl rfl⟩
    | none =>
      subst hp
      exact Or.inl ⟨rfl, Or.inl rfl⟩
  | key k =>
    rw [show update m (.key k) = updateKey m k from rfl] at hp
    unfold updateKey at hp
    by_cases h1 : k = "ctrl+c" ∨ k = "q"
    · rw [if_pos h1] at hp
      subst hp
      exact Or.inl ⟨rfl, Or.inl rfl⟩
    rw [if_neg h1] at hp
    by_cases h2 : k = "esc"
    · rw [if_pos h2] at hp
      cases hs : m.state <;> rw [hs] at hp <;> subst hp <;>
        exact Or.inl ⟨rfl, Or.inl rfl⟩
    rw [if_neg h2] at hp
    by_cases h3 : k = "/"
    · rw [if_pos h3] at hp
      by_cases h3b : m.state = .articleView
      · rw [if_pos h3b] at hp
        subst hp
        exact Or.inl ⟨rfl, Or.inl rfl⟩
      · rw [if_neg h3b] at hp
        subst hp
        exact Or.inl ⟨(typeKey_proj _ _).2.1, Or.inl (typeKey_proj _ _).2.2.1⟩
    rw [if_neg h3] at hp
    by_cases h4 : k = "n"
    · rw [if_pos h4] at hp
      by_cases h4b : m.state = .articleView ∧ m.matchIndexes ≠ []
      · rw [if_pos h4b] at hp
        subst hp
        exact Or.inl ⟨(typeKey_proj _ _).2.1, Or.inl (typeKey_proj _ _).2.2.1⟩
      · rw [if_neg h4b] at hp
        subst hp
        exact Or.inl ⟨(typeKey_proj _ _).2.1, Or.inl (typeKey_proj _ _).2.2.1⟩
    rw [if_neg h4] at hp
    by_cases h5 : k = "p"
    · rw [if_pos h5] at hp
      by_cases h5b : m.state = .articleView ∧ m.matchIndexes ≠ []
      · rw [if_pos h5b] at hp
        subst hp
        exact Or.inl ⟨(typeKey_proj _ _).2.1, Or.inl (typeKey_proj _ _).2.2.1⟩
      · rw [if_neg h5b] at hp
        subst hp
        exact Or.inl ⟨(typeKey_proj _ _).2.1, Or.inl (typeKey_proj _ _).2.2.1⟩
    rw [if_neg h5] at hp
    by_cases h6 : k = "up" ∨ k = "k"
    · rw [if_pos h6] at hp
      cases hs : m.state with
      | wikiSelectionView =>
        rw [hs] at hp
        by_cases hc : m.wikiCursor > 0
        · rw [if_pos hc] at hp
          subst hp
          exact Or.inl ⟨(typeKey_proj _ _).2.1, Or.inl (typeKey_proj _ _).2.2.1⟩
        · rw [if_neg hc] at hp
          subst hp
          exact Or.inl ⟨(typeKey_proj _ _).2.1, Or.inl (typeKey_proj _ _).2.2.1⟩
      | searchResultsView =>
        rw [hs] at hp
        by_cases hc : m.cursor > 0
        · rw [if_pos hc] at hp
          subst hp
          exact Or.inl ⟨(typeKey_proj _ _).2.1,
            Or.inr (Or.inl (typeKey_proj _ _).2.2.1)⟩
        · rw [if_neg hc] at hp
          subst hp
          exact Or.inl ⟨(typeKey_proj _ _).2.1, Or.inl (typeKey_proj _ _).2.2.1⟩
      | articleView =>
        rw [hs] at hp
        subst hp
        exact Or.inl ⟨(typeKey_proj _ _).2.1, Or.inl (typeKey_proj _ _).2.2.1⟩
      | searchArticleView =>
        rw [hs] at hp
        subst hp
        exact Or.inl ⟨(typeKey_proj _ _).2.1, Or.inl (typeKey_proj _ _).2.2.1⟩
    rw [if_neg h6] at hp
    by_cases h7 : k = "down" ∨ k = "j"
    · rw [if_pos h7] at hp
      cases hs : m.state with
      | wikiSelectionView =>
        rw [hs] at hp
        by_cases hc : (m.wikiCursor : Int) < (m.wikiOptions.length : Int) - 1
        · rw [if_pos hc] at hp
          subst hp
          exact Or.inl ⟨(typeKey_proj _ _).2.1, Or.inl (typeKey_proj _ _).2.2.1⟩
        · rw [if_neg hc] at hp
          subst hp
          exact Or.inl ⟨(typeKey_proj _ _).2.1, Or.inl (typeKey_proj _ _).2.2.1⟩
      | searchResultsView =>
        rw [hs] at hp
        by_cases hc : (m.cursor : Int) < (m.results.length : Int) - 1
        · rw [if_pos hc] at hp
          subst hp
          exact Or.inl ⟨(typeKey_proj _ _).2.1,
            Or.inr (Or.inr ⟨(typeKey_proj _ _).2.2.1, hc⟩)⟩
        · rw [if_neg hc] at hp
          subst hp
          exact Or.inl ⟨(typeKey_proj _ _).2.1, Or.inl (typeKey_proj _ _).2.2.1⟩
      | articleView =>
        rw [hs] at hp
        subst hp
        exact Or.inl ⟨(typeKey_proj _ _).2.1, Or.inl (typeKey_proj _ _).2.2.1⟩
      | searchArticleView =>
        rw [hs] at hp
        subst hp
        exact Or.inl ⟨(typeKey_proj _ _).2.1, Or.inl (typeKey_proj _ _).2.2.1⟩
    rw [if_neg h7] at hp
    by_cases h8 : k = "ctrl+u" ∨ k = "ctrl+d"
    · rw [if_pos h8] at hp
      by_cases h8b : m.state = .articleView
      · rw [if_pos h8b] at hp
        subst hp
        exact Or.inl ⟨rfl, Or.inl rfl⟩
      · rw [if_neg h8b] at hp
        subst hp
        exact Or.inl ⟨(typeKey_proj _ _).2.1, Or.inl (typeKey_proj _ _).2.2.1⟩
    rw [if_neg h8] at hp
    by_cases h9 : k = "o"
    · rw [if_pos h9] at hp
      by_cases h9b : m.state = .searchResultsView ∧ m.results ≠ []
      · rw [if_pos h9b] at hp
        subst hp
        exact Or.inl ⟨rfl, Or.inl rfl⟩
      · rw [if_neg h9b] at hp
        subst hp
        exact Or.inl ⟨(typeKey_proj _ _).2.1, Or.inl (typeKey_proj _ _).2.2.1⟩
    rw [if_neg h9] at hp
    by_cases h10 : k = "enter"
    · rw [if_pos h10] at hp
      by_cases ha : m.state = .wikiSelectionView
      · rw [if_pos ha] at hp
        subst hp
        exact Or.inl ⟨rfl, Or.inl rfl⟩
      rw [if_neg ha] at hp
      by_cases hb : m.state = .searchArticleView
      · rw [if_pos hb] at hp
        subst hp
        exact Or.inl ⟨rfl, Or.inl rfl⟩
      rw [if_neg hb] at hp
      by_cases hc : m.textInput.focused = true
      · rw [if_pos hc] at hp
        by_cases hd : m.textInput.value ≠ []
        · rw [if_pos hd] at hp
          subst hp
          exact Or.inl ⟨rfl, Or.inl rfl⟩
        · rw [if_neg hd] at hp
          subst hp
          exact Or.inl ⟨(typeKey_proj _ _).2.1, Or.inl (typeKey_proj _ _).2.2.1⟩
      rw [if_neg hc] at hp
      by_cases he : m.state = .searchResultsView ∧ m.results ≠ []
      · rw [if_pos he] at hp
        subst hp
        exact Or.inl ⟨rfl, Or.inl rfl⟩
      · rw [if_neg he] at hp
        subst hp
        exact Or.inl ⟨(typeKey_proj _ _).2.1, Or.inl (typeKey_proj _ _).2.2.1⟩
    rw [if_neg h10] at hp
    subst hp
    exact Or.inl ⟨(typeKey_proj _ _).2.1, Or.inl (typeKey_proj _ _).2.2.1⟩

theorem update_preserves_cursorInv (m : Model) (msg : Msg) (h : cursorInv m) :
    cursorInv (update m msg).1 := by
  rcases update_results_cursor m msg (update m msg) rfl with
    ⟨hr, hc | hc | ⟨hc, hb⟩⟩ | hc
  · intro hne
    rw [hr] at hne ⊢
    rw [hc]
    exact h hne
  · intro hne
    rw [hr] at hne ⊢
    rw [hc]
    have := h hne
    omega
  · intro hne
    rw [hr] at hne ⊢
    rw [hc]
    omega
  · intro hne
    rw [hc]
    exact List.length_pos.mpr hne

theorem up_clamp (m : Model) (hs : m.state = .searchResultsView)
    (hc : m.cursor = 0) : ((update m (.key "up")).1).cursor = 0 := by
  show (updateKey m "up").1.cursor = 0
  unfold updateKey
  rw [if_neg (by decide), if_neg (by decide), if_neg (by decide),
    if_neg (by decide), if_neg (by decide), if_pos (Or.inl rfl), hs]
  show (typeKey (if m.cursor > 0 then
    { m with state := AppState.searchResultsView, cursor := m.cursor - 1 }
    else m) "up").cursor = 0
  rw [if_neg (by omega)]
  rw [(typeKey_proj m "up").2.2.1]
  exact hc

theorem down_clamp (m : Model) (hs : m.state = .searchResultsView)
    (hb : (m.results.length : Int) - 1 ≤ (m.cursor : Int)) :
    ((update m (.key "down")).1).cursor = m.cursor := by
  show (updateKey m "down").1.cursor = m.cursor
  unfold updateKey
  rw [if_neg (by decide), if_neg (by decide), if_neg (by decide),
    if_neg (by decide), if_neg (by decide), if_neg (by decide),
    if_pos (Or.inl rfl), hs]
  show (typeKey (if (m.cursor : Int) < (m.results.length : Int) - 1
    then { m with state := AppState.searchResultsView, cursor := m.cursor + 1 }
    else m) "down").cursor = m.cursor
  rw [if_neg (by omega)]
  exact (typeKey_proj m "down").2.2.1

/-- C9: result-cursor invariant.  In every model reachable from the initial
model by any message sequence, a non-empty result list implies the cursor
lies in `[0, len(results))` (the cursor is a natural number, so `0 ≤`
always holds); moreover up/down movement clamps at the boundaries without
wrapping, and a successful search completion resets the cursor to 0. -/
theorem resultCursor_invariant :
    (∀ (f : Str → List (Nat × Nat)) (msgs : List Msg),
        (run f msgs).results ≠ [] →
          (run f msgs).cursor < (run f msgs).results.length) ∧
      (∀ m : Model, m.state = .searchResultsView → m.cursor = 0 →
        ((update m (.key "up")).1).cursor = 0) ∧
      (∀ m : Model, m.state = .searchResultsView →
        (m.results.length : Int) - 1 ≤ (m.cursor : Int) →
        ((update m (.key "down")).1).cursor = m.cursor) ∧
      (∀ (m : Model) (rs : List Str),
        ((update m (.searchMsg rs Option.none)).1).cursor = 0) := by
  refine ⟨?_, up_clamp, down_clamp, fun m rs => rfl⟩
  intro f msgs
  have hstep : ∀ (ms : List Msg) (m0 : Model), cursorInv m0 →
      cursorInv (ms.foldl (fun acc msg => (update acc msg).1) m0) := by
    intro ms
    induction ms with
    | nil => intro m0 h0; exact h0
    | cons msg rest ih =>
      intro m0 h0
      exact ih _ (update_preserves_cursorInv m0 msg h0)
  exact hstep msgs (initModel f) (fun hne => absurd rfl hne)

/-- A message sequence driving the initial model to a populated result
list: select a wiki, receive two results, move down once. -/
def demoMsgs : List Msg :=
  [.key "enter", .searchMsg [str "Go", str "C"] Option.none, .key "down"]

/-- A search-results model with one result and the cursor at the top. -/
def searchModel0 : Model :=
  { initModel (fun _ => []) with
    state := .searchResultsView
    results := [str "A"]
    cursor := 0 }

/-- A search-results model with two results and the cursor at the bottom. -/
def searchModel1 : Model :=
  { initModel (fun _ => []) with
    state := .searchResultsView
    results := [str "A", str "B"]
    cursor := 1 }

/-- Witness for C9 at a concrete reachable state and concrete clamp
situations. -/
theorem resultCursor_invariant_witness :
    ((run (fun _ => []) demoMsgs).cursor <
        (run (fun _ => []) demoMsgs).results.length) ∧
      ((update searchModel0 (.key "up")).1).cursor = 0 ∧
      ((update searchModel1 (.key "down")).1).cursor = searchModel1.cursor ∧
      ((update searchModel0 (.searchMsg [str "X"] Option.none)).1).cursor = 0 :=
  ⟨resultCursor_invariant.1 (fun _ => []) demoMsgs (by decide),
    resultCursor_invariant.2.1 searchModel0 rfl rfl,
    resultCursor_invariant.2.2.1 searchModel1 rfl (by decide),
    resultCursor_invariant.2.2.2 searchModel0 [str "X"]⟩

end WikiSearch
